import Mathlib

/-!
Verification development for the `zhang_hilbert` crate: an iterator producing a
pseudo-Hilbert scan of an arbitrarily sized rectangle (after Zhang et al.).

The definitions below are a shallow embedding of `src/core.rs` (the subdivision
scan engine `HilbertScanCore`) and `src/arb.rs` (the aspect-ratio-bounded
wrapper `ArbHilbertScanCore` and its segment `Divider`).  The coordinate type
`T` of the Rust source is instantiated at `u32` (as in the `HilbertScan32` /
`ArbHilbertScan32` aliases); machine integers are modelled as `Nat` with
explicit wrapping (`% 2^32`) wherever the Rust arithmetic could wrap.
`assert!` failures and other panics are modelled by `Option`: `none` means the
Rust code panics.
-/

namespace ZhangHilbert

/-- The modulus of the `u32` coordinate type. -/
def M32 : Nat := 4294967296

/-- Wrapping `u32` addition (release-mode Rust semantics). -/
def wadd (a b : Nat) : Nat := (a + b) % M32

/-- Wrapping `u32` subtraction (release-mode Rust semantics), for `b ≤ 2^32`. -/
def wsub (a b : Nat) : Nat := (a + M32 - b) % M32

/-- A pair `[T; 2]` of `u32` values (a size or a position). -/
abbrev V2 := Nat × Nat

/-- Index a `[T; 2]` array with an axis (`0` = X, `1` = Y), as `p[axis]`. -/
def get2 (p : V2) (ax : Nat) : Nat := if ax = 0 then p.1 else p.2

/-- Write one component of a `[T; 2]` array, as `p[axis] = v`. -/
def set2 (p : V2) (ax v : Nat) : V2 := if ax = 0 then (v, p.2) else (p.1, v)

/-- `size.map(f)` on a `[T;2]` array. -/
def map2 (f : Nat → Nat) (p : V2) : V2 := (f p.1, f p.2)

/-- The curve type address sequence table (`CURVE_ADDRESS_TABLE` in
`src/core.rs`): `(table[γ] >>> (i*2)) &&& 0b11` is the position of the `i`-th
subblock of a block with curve type `γ`. -/
def CURVE_ADDRESS_TABLE : List Nat :=
  [0b10110100, 0b01111000, 0b01001011, 0b10000111,
   0b00011110, 0b00101101, 0b11100001, 0b11010010]

/-- Look up `CURVE_ADDRESS_TABLE[c]`. -/
def curveAddr (c : Nat) : Nat := CURVE_ADDRESS_TABLE.getD c 0

/-- The curve induction table (`CURVE_INDUCTION_TABLE` in `src/core.rs`):
`table[γ][i]` is the curve type of the `i`-th subblock of a block with curve
type `γ`. -/
def CURVE_INDUCTION_TABLE : List (List Nat) :=
  [[1, 0, 0, 3], [0, 1, 1, 2], [3, 2, 2, 1], [2, 3, 3, 0],
   [7, 4, 4, 5], [6, 5, 5, 4], [5, 6, 6, 7], [4, 7, 7, 6]]

/-- Look up `CURVE_INDUCTION_TABLE[c][i]`. -/
def curveInduction (c i : Nat) : Nat := (CURVE_INDUCTION_TABLE.getD c []).getD i 0

/-- `curve_primary_axis`: the primary axis (X = 0, Y = 1) of a curve type. -/
def curve_primary_axis (c : Nat) : Nat := c &&& 1

/-- `curve_primary_negative`: the sign of the primary direction of a curve type. -/
def curve_primary_negative (c : Nat) : Nat := (c ^^^ (c >>> 1)) &&& 0b10

/-- `curve_secondary_negative_at_start` from `src/core.rs`. -/
def curve_secondary_negative_at_start (c : Nat) : Nat := c &&& 0b10

/-- `curve_end_point` from `src/core.rs`. -/
def curve_end_point (c : Nat) : Nat := curveAddr c >>> 6

/-- Structural floor-log2 with explicit fuel (so that the kernel can evaluate
it); with fuel `f` it is exact on inputs below `2^f`. -/
def log2Fuel : Nat → Nat → Nat
  | 0, _ => 0
  | f + 1, n => if 2 ≤ n then log2Fuel f (n / 2) + 1 else 0

/-- `u32::leading_zeros`: `32` minus the bit length, for values of the 32-bit
coordinate type. -/
def u32_leading_zeros (x : Nat) : Nat :=
  32 - (if x = 0 then 0 else log2Fuel 32 x + 1)

/-- `log2_floor` from `src/core.rs`: `T::zero().leading_zeros() - 1 -
x.leading_zeros()`, computed in wrapping `u32` arithmetic. -/
def log2_floor (x : Nat) : Nat :=
  wsub (wsub (u32_leading_zeros 0) 1) (u32_leading_zeros x)

/-- `num_levels_for_size` from `src/core.rs`: the number of `LevelState`s
required by `HilbertScanCore`.  The function `assert!`s that both components
of `size` are greater than `1`; a failing assertion is modelled as `none`. -/
def num_levels_for_size (size : V2) : Option Nat :=
  if size.1 ≤ 1 ∨ size.2 ≤ 1 then none
  else some (log2_floor (min size.1 size.2) + 1)

/-- `division_l1` from `src/core.rs`: the split position l₁ of a side. -/
def division_l1 (size : Nat) : Nat :=
  let m := log2_floor size - 1
  let mask := 1 <<< m
  (size &&& mask) + mask

/-- `extra_division_subblock_size` from `src/core.rs`: the size of an
extra-subdivided subblock at position `pos` of a block of size `size` with
curve type `curve_type`. -/
def extra_division_subblock_size (size : V2) (pos curve_type : Nat) : V2 :=
  let size_l1 := map2 (fun x => ((x + 3) >>> 2) <<< 1) size
  let size_l0 := (wsub size.1 size_l1.1, wsub size.2 size_l1.2)
  let pos := pos ^^^ (if curve_type = 0 then 1 else 0)
  let adr0 := pos &&& 0b10 ≠ 0
  let adr1 := pos &&& 0b01 ≠ 0
  (if adr0 then size_l1.1 else size_l0.1, if adr1 then size_l1.2 else size_l0.2)

/-- `LevelState` from `src/core.rs`: the state data of one subdivision level. -/
structure LevelState where
  size : V2
  curve_type : Nat
  progress : Nat
deriving Repr, DecidableEq

instance : Inhabited LevelState := ⟨⟨(0, 0), 0, 0⟩⟩

/-- Read `level_states[i]` (indices used by the engine are always in bounds). -/
def lsGet (ls : List LevelState) (i : Nat) : LevelState := ls.getD i default

/-- Write `level_states[i]`. -/
def lsSet (ls : List LevelState) (i : Nat) (v : LevelState) : List LevelState :=
  ls.set i v

/-- The state of `HilbertScanCore` (all fields of the Rust struct). -/
structure CoreState where
  size : V2
  num_levels : Nat
  last_level : Nat
  level_states : List LevelState
  position : V2
  bb_progress : V2
  bb_secondary_neg : Bool
  bb_curve_type : Nat
  bb_end : Nat
  bb_helper_row : Bool
  done : Bool
deriving Repr, DecidableEq

/-- The `for i in 1..=num_levels - 2` initialization loop of
`HilbertScanCore::with_level_state_storage`: each level takes the remainder
after splitting off `division_l1` of the previous level's size, and curve type
`i % 2`. -/
def buildLevels (prev : LevelState) (i : Nat) : Nat → List LevelState
  | 0 => []
  | count + 1 =>
    let cur : LevelState :=
      ⟨(wsub prev.size.1 (division_l1 prev.size.1),
        wsub prev.size.2 (division_l1 prev.size.2)), i % 2, 0⟩
    cur :: buildLevels cur (i + 1) count

/-- Orient a block size as a `bb_progress` pair: primary-axis extent first. -/
def orientProgress (ct : Nat) (size : V2) : V2 :=
  if curve_primary_axis ct ≠ 0 then (size.2, size.1) else size

/-- The tail of `HilbertScanCore::with_level_state_storage`: assemble the
state from the initialized stack and the first basic block's data. -/
def initState (size : V2) (num_levels last_level : Nat) (ls : List LevelState)
    (last_size : V2) (bb_curve_type : Nat) (helper : Bool) : CoreState :=
  { size := size
    num_levels := num_levels
    last_level := last_level
    level_states := ls
    position := (0, 0)
    bb_progress := orientProgress bb_curve_type last_size
    bb_secondary_neg := curve_secondary_negative_at_start bb_curve_type ≠ 0
    bb_curve_type := bb_curve_type
    bb_end := curve_end_point bb_curve_type
    bb_helper_row := helper
    done := false }

/-- The body of `HilbertScanCore::with_level_state_storage` after the
(asserting) `num_levels_for_size` call: initialize the level-state stack and
the first basic block.  The slots of the borrowed storage that the
constructor never writes are kept at their default value. -/
def constructState (size : V2) (num_levels : Nat) : CoreState :=
    let l0 : LevelState := ⟨size, 0, 0⟩
    let ls := l0 :: buildLevels l0 1 (num_levels - 2) ++ [default]
    let last_level := num_levels - 2
    let last_curve_type := last_level % 2
    let par := (size.1 &&& 1, size.2 &&& 1)
    let cth : Nat × Bool :=
      if par = (0, 0) then (last_curve_type, false)
      else if par = (0, 1) then (1, true)
      else (0, true)
    let curve_type := cth.1
    let helper := cth.2
    let ls :=
      if helper then
        let lvl := lsGet ls last_level
        let pa := curve_primary_axis curve_type
        lsSet ls last_level
          { lvl with size := set2 lvl.size pa (wsub (get2 lvl.size pa) 1) }
      else ls
    let last_size := (lsGet ls last_level).size
    let lvl_a := lsGet ls last_level
    let ls := lsSet ls last_level { lvl_a with curve_type := curve_type }
    if 3 ≤ last_size.1 ∧ 3 ≤ last_size.2 then
      -- the block is large enough: perform the extra subdivision
      let lvl_b := lsGet ls last_level
      let ls := lsSet ls last_level { lvl_b with progress := 0 }
      let last_size := extra_division_subblock_size last_size 0b00 curve_type
      let bb_curve_type := curveInduction curve_type 0
      let last_level := last_level + 1
      let lvl_c := lsGet ls last_level
      let ls := lsSet ls last_level { lvl_c with size := last_size }
      initState size num_levels last_level ls last_size bb_curve_type helper
    else
      -- otherwise, apply the basic scanning pattern on this block
      initState size num_levels last_level ls last_size curve_type helper

/-- `HilbertScanCore::with_level_state_storage` from `src/core.rs`: the
`num_levels_for_size` assertions panic (`none`) on sizes with a component
below 2; otherwise the state is initialized by `constructState`. -/
def with_level_state_storage (size : V2) : Option CoreState :=
  match num_levels_for_size size with
  | none => none
  | some num_levels => some (constructState size num_levels)

/-- A move of one cell along the secondary axis (the zigzag direction). -/
def moveSec (neg : Bool) (axis : Nat) (p : V2) : V2 :=
  set2 p axis (if neg then wsub (get2 p axis) 1 else wadd (get2 p axis) 1)

/-- A move of one cell along the primary axis, with the sign selected by the
curve type. -/
def movePri (ct axis : Nat) (p : V2) : V2 :=
  set2 p axis
    (if curve_primary_negative ct ≠ 0 then wsub (get2 p axis) 1 else wadd (get2 p axis) 1)

/-- The `block_done` test of the helper-row branch of `HilbertScanCore::next`. -/
def helperBlockDone (s : CoreState) : Bool :=
  if s.last_level = s.num_levels - 2 then true
  else (lsGet s.level_states (s.num_levels - 2)).progress = 3

/-- The helper-row emission branch of `HilbertScanCore::next`: scan one extra
row so that the block is left at the intended corner. -/
def emitHelper (s : CoreState) : CoreState :=
  let level := lsGet s.level_states (s.num_levels - 2)
  let pri_axis := curve_primary_axis level.curve_type
  let sec_axis := pri_axis ^^^ 1
  let sec_width := get2 level.size sec_axis
  { s with
    bb_end := 0b11
    bb_curve_type := level.curve_type
    bb_secondary_neg := false
    bb_progress := (1, sec_width)
    bb_helper_row := false
    position := set2 s.position pri_axis (wadd (get2 s.position pri_axis) 1)
    last_level := s.num_levels - 2 }

/-- Increment `level_states[i].progress` (the first statement of each ascent
loop iteration), returning the updated stack and the new progress value. -/
def ascendBump (ls : List LevelState) (i : Nat) : List LevelState × Nat :=
  let lvl := lsGet ls i
  let p := lvl.progress + 1
  (lsSet ls i { lvl with progress := p }, p)

/-- The `break` arm of the ascent loop of `HilbertScanCore::next`: read the
relative position of the next subblock of level `i`, move the cursor
accordingly, and compute the entry corner of the next block. -/
def ascendBreak (pri_axis sec_axis bb_ct bb_end : Nat) (bb_sec_neg : Bool)
    (pos : V2) (ls : List LevelState) (i : Nat) :
    List LevelState × Option (Nat × V2 × Nat) :=
  let lvl := lsGet ls i
  let adr := curveAddr lvl.curve_type >>> (lvl.progress * 2 - 2)
  let adr_rel := adr ^^^ (adr >>> 2)
  let is_adr_rel_primary := (adr_rel >>> sec_axis) &&& 1 ≠ 0
  let pos :=
    if is_adr_rel_primary then movePri bb_ct pri_axis pos
    else
      -- the sign is negated on purpose to cancel the zigzag toggle
      set2 pos sec_axis
        (if bb_sec_neg then wadd (get2 pos sec_axis) 1 else wsub (get2 pos sec_axis) 1)
  let next_bb_enter := bb_end ^^^ (adr_rel &&& 0b11)
  (ls, some (i, pos, next_bb_enter))

/-- The ascent loop of `HilbertScanCore::next`: walk up the level stack
incrementing `progress`; on reaching a level with `progress < 4`, move the
cursor to the next subblock and report `(level, new position, next_bb_enter)`;
`none` means the top of the stack was exhausted (the scan is complete). -/
def ascendLoop (pri_axis sec_axis bb_ct bb_end : Nat) (bb_sec_neg : Bool)
    (pos : V2) (ls : List LevelState) : Nat → List LevelState × Option (Nat × V2 × Nat)
  | 0 =>
    let b := ascendBump ls 0
    if b.2 = 4 then (b.1, none)
    else ascendBreak pri_axis sec_axis bb_ct bb_end bb_sec_neg pos b.1 0
  | i + 1 =>
    let b := ascendBump ls (i + 1)
    if b.2 = 4 then ascendLoop pri_axis sec_axis bb_ct bb_end bb_sec_neg pos b.1 i
    else ascendBreak pri_axis sec_axis bb_ct bb_end bb_sec_neg pos b.1 (i + 1)

/-- The re-descent loop (`while i < num_levels - 2`) of
`HilbertScanCore::next`: recompute sizes and curve types down to the new leaf.
The fuel argument is `num_levels - 2 - i`. -/
def descendLoop (ls : List LevelState) (i : Nat) : Nat → List LevelState × Nat
  | 0 => (ls, i)
  | fuel + 1 =>
    let lvl := lsGet ls i
    let adr := curveAddr lvl.curve_type >>> (lvl.progress * 2)
    let adr0 := adr &&& 0b10 ≠ 0
    let adr1 := adr &&& 0b01 ≠ 0
    let ind := curveInduction lvl.curve_type lvl.progress
    let size_l1 := map2 division_l1 lvl.size
    let size_l0 := (wsub lvl.size.1 size_l1.1, wsub lvl.size.2 size_l1.2)
    let size : V2 := (if adr0 then size_l1.1 else size_l0.1, if adr1 then size_l1.2 else size_l0.2)
    descendLoop (lsSet ls (i + 1) ⟨size, ind, 0⟩) (i + 1) fuel

/-- `SCANNING_TYPE` from `src/core.rs`: the basic pattern of a new `T_B(E, E)`
block, indexed by `(direction sign of the next block, entry corner, direction
axis of the next block)`. -/
def SCANNING_TYPE : List (List (List Nat)) :=
  [[[0, 1], [4 ||| 2, 4 ||| 2], [4 ||| 3, 4 ||| 3], [3, 2]],
   [[1, 0], [4 ||| 1, 4 ||| 1], [4 ||| 0, 4 ||| 0], [2, 3]]]

/-- Look up `SCANNING_TYPE[sign][enter][dir]`. -/
def scanningType (sign enter dir : Nat) : Nat :=
  ((SCANNING_TYPE.getD sign []).getD enter []).getD dir 0

/-- The `break` arm of the next-block-location loop of the `T_B(E, E)` case:
the axis and sign of the move that will leave level `j`'s current subblock. -/
def nextDirBreak (ls : List LevelState) (j : Nat) : Nat × Nat :=
  let lvl := lsGet ls j
  let adr := curveAddr lvl.curve_type >>> (lvl.progress * 2)
  let adr_rel := adr ^^^ (adr >>> 2)
  (adr_rel &&& 1, if adr &&& adr_rel &&& 0b11 ≠ 0 then 1 else 0)

/-- The inner loop of the `T_B(E, E)` arm of `HilbertScanCore::next`: find the
location (axis and sign) of the next block by walking up from level `j`;
`(0, 0)` (move right) is the default at the top of the stack. -/
def nextDirLoop (ls : List LevelState) : Nat → Nat × Nat
  | 0 => if (lsGet ls 0).progress = 3 then (0, 0) else nextDirBreak ls 0
  | j + 1 =>
    if (lsGet ls (j + 1)).progress = 3 then nextDirLoop ls j
    else nextDirBreak ls (j + 1)

/-- Install a new basic-block scanning state (the common tail of the
new-block code paths of `HilbertScanCore::next`). -/
def setBasicBlock (s : CoreState) (ct : Nat) (size : V2) : CoreState :=
  { s with
    bb_secondary_neg := curve_secondary_negative_at_start ct ≠ 0
    bb_curve_type := ct
    bb_end := curve_end_point ct
    bb_progress := orientProgress ct size }

/-- The `i == num_levels - 2` early-return branch of `HilbertScanCore::next`:
the scan moved between extra-subdivided blocks of the same basic block. -/
def sameBlock (s : CoreState) (i : Nat) : CoreState :=
  let lvl := lsGet s.level_states i
  let adr := curveAddr lvl.curve_type >>> (lvl.progress * 2)
  let bb_ct := curveInduction lvl.curve_type lvl.progress
  let size := extra_division_subblock_size lvl.size adr lvl.curve_type
  let child := lsGet s.level_states (i + 1)
  let ls := lsSet s.level_states (i + 1) { child with size := size }
  setBasicBlock { s with level_states := ls } bb_ct size

/-- The new-block tail of `HilbertScanCore::next`: re-descend to the new leaf,
select its basic scanning pattern, and possibly extra-subdivide it. -/
def newBlock (s : CoreState) (i0 next_bb_enter : Nat) : CoreState :=
  let d := descendLoop s.level_states i0 (s.num_levels - 2 - i0)
  let ls := d.1
  let i := d.2
  let size := (lsGet ls i).size
  -- as written in the source: `((size[0] & T::zero()) << 1) | (size[1] & T::zero())`
  let even_flags := ((size.1 &&& 0) <<< 1) ||| (size.2 &&& 0)
  let bb_ct :=
    if even_flags = 0b00 then
      let ds := nextDirLoop ls (i - 1)
      scanningType ds.2 next_bb_enter ds.1
    else if even_flags = 0b01 then 4 ||| 2
    else if even_flags = 0b10 then 4 ||| 3
    else 0
  if 3 ≤ size.1 ∧ 3 ≤ size.2 then
    let lvl_i := lsGet ls i
    let ls := lsSet ls i { lvl_i with progress := 0, curve_type := bb_ct }
    let size2 := extra_division_subblock_size size next_bb_enter bb_ct
    let bb_ct2 := curveInduction bb_ct 0
    let lvl_j := lsGet ls (i + 1)
    let ls := lsSet ls (i + 1) { lvl_j with size := size2 }
    { setBasicBlock { s with level_states := ls } bb_ct2 size2 with last_level := i + 1 }
  else
    { setBasicBlock { s with level_states := ls } bb_ct size with last_level := i }

/-- The ascent/descent tail of `HilbertScanCore::next`, entered when the
current basic block is complete. -/
def stepAscend (s : CoreState) (pri_axis sec_axis : Nat) : CoreState :=
  match ascendLoop pri_axis sec_axis s.bb_curve_type s.bb_end s.bb_secondary_neg
      s.position s.level_states (s.last_level - 1) with
  | (ls, none) => { s with level_states := ls, done := true }
  | (ls, some (i, pos, next_bb_enter)) =>
    let s := { s with level_states := ls, position := pos }
    if i = s.num_levels - 2 then sameBlock s i else newBlock s i next_bb_enter

/-- The block-complete tail of `HilbertScanCore::next` (after the leaf zigzag
was exhausted): helper row, completion, or ascent to the next block. -/
def stepBlockEnd (s : CoreState) (pri_axis sec_axis : Nat) : CoreState :=
  if s.bb_helper_row && helperBlockDone s then emitHelper s
  else if s.last_level = 0 then { s with done := true }
  else stepAscend s pri_axis sec_axis

/-- The state transition of one `HilbertScanCore::next` call that emits a
coordinate (every non-`done` call emits `self.position` read at entry and
mutates the state as computed here). -/
def step (s : CoreState) : CoreState :=
  let pri_axis := curve_primary_axis s.bb_curve_type
  let sec_axis := pri_axis ^^^ 1
  let sec_width := get2 (lsGet s.level_states s.last_level).size sec_axis
  let pri := s.bb_progress.1
  let sec := wsub s.bb_progress.2 1
  if sec ≠ 0 then
    { s with position := moveSec s.bb_secondary_neg sec_axis s.position
             bb_progress := (pri, sec) }
  else
    let s := { s with bb_secondary_neg := !s.bb_secondary_neg }
    let pri := wsub pri 1
    if pri ≠ 0 then
      { s with position := movePri s.bb_curve_type pri_axis s.position
               bb_progress := (pri, sec_width) }
    else
      stepBlockEnd s pri_axis sec_axis

/-- `HilbertScanCore::next` (`Iterator::next` in `src/core.rs`): when `done`
return `None` and leave the state unchanged, otherwise emit the current
position and advance the state machine. -/
def next (s : CoreState) : Option V2 × CoreState :=
  if s.done then (none, s) else (some s.position, step s)

/-- Drive `next` for at most `fuel` emissions, collecting the emitted
coordinates. -/
def runCore (s : CoreState) : Nat → List V2
  | 0 => []
  | fuel + 1 =>
    match next s with
    | (none, _) => []
    | (some p, s') => p :: runCore s' fuel

/-- The full coordinate sequence of `HilbertScanCore::new([w, h])` (with one
spare fuel step so that an over-long scan is detectable); `none` models a
constructor panic. -/
def coreScan (w h : Nat) : Option (List V2) :=
  (with_level_state_storage (w, h)).map (fun s => runCore s (w * h + 1))

/-! ## The aspect-ratio-bounded wrapper (`src/arb.rs`) -/

/-- `division_count` from `src/arb.rs`: estimate the optimal subdivision
count.  All subtractions are in range (`major / (major / minor) ≥ minor` and
`major / (major / minor + 1) ≤ minor` for `major > minor ≥ 1`), so plain `Nat`
subtraction agrees with the `u32` arithmetic of the source. -/
def division_count (major minor : Nat) : Nat :=
  if major ≤ minor then 1
  else
    let k := major / minor
    let w1 := major / k
    let w2 := major / (k + 1)
    let d1 := w1 - minor
    let d2 := minor - w2
    if d1 < d2 then k else k + 1

/-- `Divider::next` from `src/arb.rs`, as a pure function from the `remaining`
field to the produced width and the updated `remaining` (`minor` is the fixed
minor-axis length).  Chunks other than the final one are rounded up to an even
width so that the segment leaves at a seam-compatible corner. -/
def dividerNext (remaining minor : Nat) : Option (Nat × Nat) :=
  if remaining = 0 then none
  else
    let count := division_count remaining minor
    let width :=
      if count = 1 then remaining
      else
        let w := remaining / count
        if w &&& 1 ≠ 0 then w + 1 else w
    some (width, remaining - width)

/-- The full sequence of segment widths produced by a `Divider` with the given
`remaining` and `minor` fields; the fuel argument bounds the iteration count
(every produced width is positive, so fuel `remaining` is always enough). -/
def dividerList (minor : Nat) : Nat → Nat → List Nat
  | 0, _ => []
  | _, 0 => []
  | fuel + 1, remaining =>
    match dividerNext remaining minor with
    | none => []
    | some (w, rem) => w :: dividerList minor fuel rem

/-- The widths of the segments a `(major, minor)` rectangle is divided into. -/
def dividerSeq (major minor : Nat) : List Nat := dividerList minor major major

/-- The state of `ArbHilbertScanCore` (`src/arb.rs`): the live core engine,
the major axis, the `Divider` fields, and the current part's position and
length along the major axis. -/
structure ArbState where
  inner : CoreState
  major_axis : Nat
  divider_remaining : Nat
  divider_minor : Nat
  pos : Nat
  len : Nat
deriving Repr, DecidableEq

/-- `ArbHilbertScanCore::to_global`: translate a part-local coordinate into
the global coordinate space. -/
def to_global (s : ArbState) (p : V2) : V2 :=
  let p0 := wadd p.1 s.pos
  if s.major_axis ≠ 0 then (p.2, p0) else (p0, p.2)

/-- `ArbHilbertScanCore::with_level_state_storage` from `src/arb.rs`:
zero-area input constructs a core engine directly on the degenerate size;
otherwise the `Divider` is set up along the major axis (the longer side, ties
to axis 0) and a core engine is constructed for the first segment.  `none`
models a panic of the inner core-engine constructor. -/
def arb_with_level_state_storage (size : V2) : Option ArbState :=
  if size.1 = 0 ∨ size.2 = 0 then
    (with_level_state_storage size).map (fun c =>
      { inner := c, major_axis := 0, divider_remaining := 0, divider_minor := 0,
        pos := 0, len := 0 })
  else
    let major_axis := if size.2 > size.1 then 1 else 0
    let remaining := get2 size major_axis
    let minor := get2 size (major_axis ^^^ 1)
    let first :=
      match dividerNext remaining minor with
      | some x => x
      | none => (0, remaining)
    let len := first.1
    (with_level_state_storage (len, minor)).map (fun c =>
      { inner := c, major_axis := major_axis, divider_remaining := first.2,
        divider_minor := minor, pos := 0, len := len })

/-- `ArbHilbertScanCore::next` (`Iterator::next` in `src/arb.rs`).  The outer
`Option` models panics (a failing inner-constructor assertion or a failing
`unwrap` on an exhausted fresh engine); the inner `Option` is the iterator's
yielded value. -/
def arbNext (s : ArbState) : Option (Option V2 × ArbState) :=
  match next s.inner with
  | (some p, inner') => some (some (to_global s p), { s with inner := inner' })
  | (none, inner') =>
    match dividerNext s.divider_remaining s.divider_minor with
    | none => some (none, { s with inner := inner' })
    | some (next_len, rem) =>
      match with_level_state_storage (next_len, s.divider_minor) with
      | none => none
      | some c =>
        let s :=
          { s with
            divider_remaining := rem
            pos := wadd s.pos s.len
            len := next_len }
        match next c with
        | (none, _) => none
        | (some p, c') => some (some (to_global s p), { s with inner := c' })

/-- Drive `arbNext` for at most `fuel` emissions; `none` reports a panic. -/
def runArb (s : ArbState) : Nat → Option (List V2)
  | 0 => some []
  | fuel + 1 =>
    match arbNext s with
    | none => none
    | some (none, _) => some []
    | some (some p, s') => (runArb s' fuel).map (fun l => p :: l)

/-- The full coordinate sequence of `ArbHilbertScanCore::new([w, h])`; `none`
models a panic during construction or iteration. -/
def arbScan (w h : Nat) : Option (List V2) :=
  match arb_with_level_state_storage (w, h) with
  | none => none
  | some s => runArb s (w * h + 1)

/-! ## Property checkers (the testable properties of the specification) -/

/-- One scan move is rook-adjacent: exactly one coordinate differs, and the
differing coordinate changes by exactly `1`. -/
def adjPair (p q : V2) : Bool :=
  (p.1 == q.1 && (p.2 + 1 == q.2 || q.2 + 1 == p.2)) ||
  (p.2 == q.2 && (p.1 + 1 == q.1 || q.1 + 1 == p.1))

/-- Every consecutive pair of a coordinate list is rook-adjacent. -/
def adjOkList : List V2 → Bool
  | p :: q :: rest => adjPair p q && adjOkList (q :: rest)
  | _ => true

/-- Every coordinate lies in the `[0,w) × [0,h)` grid. -/
def boundsOk (w h : Nat) (l : List V2) : Bool :=
  l.all (fun p => p.1 < w && p.2 < h)

/-- Occupancy bitmap of a coordinate list over a width-`w` grid, with a flag
that records that no cell was visited twice. -/
def coverFold (w : Nat) (l : List V2) : Nat × Bool :=
  l.foldl (fun acc p =>
    let bit := 1 <<< (p.2 * w + p.1)
    (acc.1 ||| bit, acc.2 && (acc.1 &&& bit == 0))) (0, true)

/-- Every cell of the `[0,w) × [0,h)` grid is visited exactly once (to be used
together with `boundsOk`, which makes the cell encoding injective). -/
def coverOk (w h : Nat) (l : List V2) : Bool :=
  let r := coverFold w l
  r.2 && (r.1 == (1 <<< (w * h)) - 1)

/-- The scan of `HilbertScanCore::new([w, h])` satisfies Coverage (exactly
`w*h` coordinates, each grid cell exactly once), Boundedness and Adjacency;
`false` in particular when the construction panics. -/
def checkCore (w h : Nat) : Bool :=
  match coreScan w h with
  | none => false
  | some l => l.length == w * h && boundsOk w h l && coverOk w h l && adjOkList l

/-- The scan of `ArbHilbertScanCore::new([w, h])` satisfies Coverage,
Boundedness and Adjacency (including across segment seams); `false` in
particular when construction or iteration panics. -/
def checkArb (w h : Nat) : Bool :=
  match arbScan w h with
  | none => false
  | some l => l.length == w * h && boundsOk w h l && coverOk w h l && adjOkList l

/-- Is `p` one of the four corners of the `[0,w) × [0,h)` grid? -/
def cornerOf (w h : Nat) (p : V2) : Bool :=
  (p.1 == 0 || p.1 + 1 == w) && (p.2 == 0 || p.2 + 1 == h)

/-! ## Claims -/

/-- C1: the claim states that for every `0 ≤ W,H < 64` the `HilbertScanCore`
scan emits exactly `W*H` coordinates covering the grid exactly once and in
bounds.  This fails on the code: for any size with a component below `2`,
`num_levels_for_size` (called unconditionally by the constructor) fails its
`assert!(size[i] > 1)`, so construction panics (`none`) and no sequence is
produced at all — contradicting the repository's own sweep test
(`tests/scan.rs` iterates sizes from `0`) and the specification's "zero-area
input is not an error". -/
theorem C1_core_coverage_fails_on_degenerate_sizes :
    coreScan 0 0 = none ∧ coreScan 0 5 = none ∧ coreScan 1 1 = none ∧
      coreScan 1 5 = none ∧ checkCore 2 2 = true :=
  ⟨rfl, rfl, rfl, rfl, rfl⟩

/-- C2: the claim states rook-adjacency of all consecutive emitted pairs for
every `0 ≤ W,H < 64`.  For sizes with a component below `2` the constructor
panics (assertion in `num_levels_for_size`), so the presupposed emitted
sequence does not exist; the repository's own tests expect these sizes to
iterate.  (For sizes with both components in `[2,64)` the adjacency property
holds on the model.) -/
theorem C2_core_adjacency_fails_on_degenerate_sizes :
    coreScan 5 0 = none ∧ coreScan 5 1 = none ∧ coreScan 2 1 = none ∧
      checkCore 3 2 = true :=
  ⟨rfl, rfl, rfl, rfl⟩

/-- C3: the claim states Coverage, Adjacency and Boundedness for the
`ArbHilbertScanCore` wrapper, including across segment seams, for every
`0 ≤ W,H < 64`.  This fails on the code at many sizes inside the repository's
own test range: for `[4,3]` the two composed `[2,3]` segments meet at the
non-adjacent seam pair `(1,2) → (2,0)`, and for `[5,2]` the divider's final
width-1 segment makes the in-iteration core construction panic. -/
theorem C3_arb_properties_fail :
    arbScan 4 3 =
      some [(0,0), (1,0), (1,1), (0,1), (0,2), (1,2),
            (2,0), (3,0), (3,1), (2,1), (2,2), (3,2)] ∧
      adjPair (1,2) (2,0) = false ∧ checkArb 4 3 = false ∧ arbScan 5 2 = none :=
  ⟨rfl, rfl, rfl, rfl⟩

/-- C4: the claim states that sizes containing `0` give an immediately empty
sequence and `[1,1]` gives the single coordinate `[0,0]`, for both iterators.
On the code all of these constructions panic instead: `num_levels_for_size`
asserts both components exceed `1`, and the arb wrapper's zero-area branch
and its `[1,1]` segment construction both call that constructor. -/
theorem C4_degenerate_sizes_panic :
    with_level_state_storage (0, 5) = none ∧
      arb_with_level_state_storage (0, 5) = none ∧
      with_level_state_storage (1, 1) = none ∧
      arb_with_level_state_storage (1, 1) = none :=
  ⟨rfl, rfl, rfl, rfl⟩

/-- C9: the claim states that the `[6,7]` scan's last (42nd) coordinate is a
corner of the grid.  On the code the scan does emit 42 coordinates, but the
last one is `(5,2)`, which is not a corner of `{0,5} × {0,6}` (the crate
documentation's "fixed leaving point" picture is not what the code
produces). -/
theorem C9_scan_6_7_leave_point :
    (coreScan 6 7).map (fun l => (l.length, l.getLast?)) = some (42, some (5, 2)) ∧
      cornerOf 6 7 (5, 2) = false :=
  ⟨rfl, rfl⟩

instance : Inhabited CoreState :=
  ⟨⟨(0, 0), 0, 0, [], (0, 0), (0, 0), false, 0, 0, false, true⟩⟩

instance : Inhabited ArbState := ⟨⟨default, 0, 0, 0, 0, 0⟩⟩

/-- An exhausted core engine needs no other live data: `next` only reads the
`done` flag before returning `None`. -/
theorem next_of_done {s : CoreState} (h : s.done = true) : next s = (none, s) := by
  simp [next, h]

/-- `next` yields `none` only in the `done` early-return, which leaves the
state untouched. -/
theorem next_fst_none {s : CoreState} (h : (next s).1 = none) :
    s.done = true ∧ next s = (none, s) := by
  by_cases hd : s.done
  · exact ⟨hd, next_of_done hd⟩
  · simp [next, hd] at h

/-- C8: the emitted coordinate sequence is a deterministic function of the
construction size alone: two `HilbertScanCore` (resp. `ArbHilbertScanCore`)
instances constructed from the same size and iterated the same number of
times produce identical coordinate sequences. -/
theorem C8_reconstruction_deterministic (size : V2) (s t : CoreState)
    (a b : ArbState) (n : Nat)
    (hs : with_level_state_storage size = some s)
    (ht : with_level_state_storage size = some t)
    (ha : arb_with_level_state_storage size = some a)
    (hb : arb_with_level_state_storage size = some b) :
    runCore s n = runCore t n ∧ runArb a n = runArb b n := by
  rw [hs] at ht
  rw [ha] at hb
  cases ht
  cases hb
  exact ⟨rfl, rfl⟩

/-- Witness for C8 at the concrete size `[2,2]`, iterated 4 steps. -/
theorem C8_reconstruction_deterministic_witness :
    runCore ((with_level_state_storage (2, 2)).getD default) 4 =
      runCore ((with_level_state_storage (2, 2)).getD default) 4 ∧
    runArb ((arb_with_level_state_storage (2, 2)).getD default) 4 =
      runArb ((arb_with_level_state_storage (2, 2)).getD default) 4 :=
  C8_reconstruction_deterministic (2, 2) _ _ _ _ 4 rfl rfl rfl rfl

/-- C10: both iterators are fused: once `next()` has returned `None`, every
subsequent call also returns `None` (the core engine's `done` early-return
leaves the state unchanged, and the wrapper returns `None` only when its
divider is exhausted, which no call changes). -/
theorem C10_iterators_fused :
    (∀ s : CoreState, (next s).1 = none → next ((next s).2) = (none, (next s).2)) ∧
    (∀ t u : ArbState, arbNext t = some (none, u) → arbNext u = some (none, u)) := by
  constructor
  · intro s h
    obtain ⟨hd, hn⟩ := next_fst_none h
    rw [hn]
    exact next_of_done hd
  · intro t u h
    rcases hni : next t.inner with ⟨po, i'⟩
    simp only [arbNext, hni] at h
    cases po with
    | some p => simp at h
    | none =>
      have h0 : (next t.inner).1 = none := by rw [hni]
      obtain ⟨hd, hn⟩ := next_fst_none h0
      rw [hni] at hn
      injection hn with hn1 hn2
      subst hn2
      rcases hdiv : dividerNext t.divider_remaining t.divider_minor with _ | ⟨len, rem⟩
      · simp only [hdiv] at h
        have het : ({ t with inner := t.inner } : ArbState) = t := rfl
        rw [het] at h
        injection h with h'
        injection h' with h1 h2
        subst h2
        show arbNext t = some (none, t)
        simp only [arbNext, hni, hdiv]
      · simp only [hdiv] at h
        rcases hc : with_level_state_storage (len, t.divider_minor) with _ | c
        · simp only [hc] at h
          exact absurd h (by simp)
        · simp only [hc] at h
          rcases hnc : next c with ⟨pc, c'⟩
          simp only [hnc] at h
          cases pc <;> simp at h

/-- Witness for C10 at a concrete exhausted core state and wrapper state. -/
theorem C10_iterators_fused_witness :
    next ((next (default : CoreState)).2) = (none, (next (default : CoreState)).2) ∧
      arbNext (default : ArbState) = some (none, (default : ArbState)) :=
  ⟨C10_iterators_fused.1 default rfl, C10_iterators_fused.2 default default rfl⟩

/-- With enough fuel, `log2Fuel` is the mathematical floor-log2. -/
theorem log2Fuel_eq_log2 : ∀ f x, x < 2 ^ f → log2Fuel f x = Nat.log2 x := by
  intro f
  induction f with
  | zero =>
    intro x hx
    interval_cases x
    simp [log2Fuel, Nat.log2]
  | succ f ih =>
    intro x hx
    have hpow : (2 : Nat) ^ (f + 1) = 2 ^ f * 2 := by ring
    have hdiv : x / 2 < 2 ^ f := (Nat.div_lt_iff_lt_mul (by norm_num)).mpr (by omega)
    rw [log2Fuel]
    by_cases h2 : 2 ≤ x
    · rw [if_pos h2, ih (x / 2) hdiv]
      conv_rhs => rw [Nat.log2]
      rw [if_pos h2]
    · rw [if_neg h2]
      conv_rhs => rw [Nat.log2]
      rw [if_neg h2]

/-- Unwrapped `u32` subtraction agrees with `Nat` subtraction in range. -/
theorem wsub_of_le {a b : Nat} (h1 : b ≤ a) (h2 : a < M32) : wsub a b = a - b := by
  unfold wsub
  have h3 : a + M32 - b = M32 + (a - b) := by omega
  rw [h3, Nat.add_mod_left]
  exact Nat.mod_eq_of_lt (by omega)

/-- For a positive 32-bit value, `log2_floor` computes the floor-log2. -/
theorem log2_floor_eq_log2 {x : Nat} (h1 : 1 ≤ x) (h2 : x < 2 ^ 32) :
    log2_floor x = Nat.log2 x := by
  have hlog : Nat.log2 x < 32 := (Nat.log2_lt (by omega)).mpr h2
  have hlz : u32_leading_zeros x = 32 - (Nat.log2 x + 1) := by
    unfold u32_leading_zeros
    rw [if_neg (by omega), log2Fuel_eq_log2 32 x (by exact_mod_cast h2)]
  unfold log2_floor
  rw [hlz]
  have h0 : u32_leading_zeros 0 = 32 := rfl
  rw [h0]
  have hw1 : wsub 32 1 = 31 := by decide
  rw [hw1, wsub_of_le (by omega) (by norm_num [M32])]
  omega

/-- C6: for every size with both components above `1` (and representable in
the 32-bit coordinate type), `num_levels_for_size` equals
`floor(log2(min(W,H))) + 1`, and this value never exceeds `32`, so the fixed
`[LevelState<u32>; 32]` storage of `HilbertScan32` / `ArbHilbertScan32` is
always large enough. -/
theorem C6_num_levels_bound (w h : Nat) (hw : 1 < w) (hh : 1 < h)
    (hw32 : w < 2 ^ 32) (hh32 : h < 2 ^ 32) :
    num_levels_for_size (w, h) = some (Nat.log2 (min w h) + 1) ∧
      Nat.log2 (min w h) + 1 ≤ 32 := by
  have hm1 : 1 ≤ min w h := by omega
  have hm32 : min w h < 2 ^ 32 := lt_of_le_of_lt (min_le_left w h) hw32
  constructor
  · unfold num_levels_for_size
    rw [if_neg (by push_neg; omega)]
    rw [log2_floor_eq_log2 hm1 hm32]
  · have : Nat.log2 (min w h) < 32 := (Nat.log2_lt (by omega)).mpr hm32
    omega

/-- Witness for C6 at the concrete size `[2,3]`. -/
theorem C6_num_levels_bound_witness :
    num_levels_for_size (2, 3) = some (Nat.log2 (min 2 3) + 1) ∧
      Nat.log2 (min 2 3) + 1 ≤ 32 :=
  C6_num_levels_bound 2 3 (by decide) (by decide) (by norm_num) (by norm_num)

/-- The estimated subdivision count is positive. -/
theorem division_count_pos (r m : Nat) (hm : 1 ≤ m) (hr : 1 ≤ r) :
    1 ≤ division_count r m := by
  simp only [division_count]
  split_ifs with h1 h2
  · omega
  · exact (Nat.one_le_div_iff (by omega)).mpr (by omega)
  · exact Nat.le_add_left 1 _

/-- The estimated subdivision count never exceeds the remaining length. -/
theorem division_count_le (r m : Nat) (hm : 1 ≤ m) (hr : 1 ≤ r) :
    division_count r m ≤ r := by
  simp only [division_count]
  split_ifs with h1 h2
  · omega
  · exact Nat.div_le_self r m
  · -- the `k + 1` estimate: here the minor length is at least 2
    have hm2 : 2 ≤ m := by
      by_contra hm1
      have hm1' : m = 1 := by omega
      subst hm1'
      have hk : r / 1 = r := Nat.div_one r
      rw [hk] at h2
      have hd1 : r / r = 1 := Nat.div_self (by omega)
      have hd2 : r / (r + 1) = 0 := Nat.div_eq_of_lt (by omega)
      omega
    have hk2 : r / m ≤ r / 2 := Nat.div_le_div_left hm2 (by norm_num)
    have : r / 2 + 1 ≤ r := by omega
    omega

/-- `Divider::next` on a nonzero remainder: the width is positive, bounded by
the remainder (which it is subtracted from), and even unless it exhausts the
remainder. -/
theorem dividerNext_spec (r m : Nat) (hm : 1 ≤ m) (hr : 1 ≤ r) :
    ∃ w rem, dividerNext r m = some (w, rem) ∧ 1 ≤ w ∧ w ≤ r ∧ rem = r - w ∧
      (rem ≠ 0 → w % 2 = 0) := by
  have hpos := division_count_pos r m hm hr
  have hle := division_count_le r m hm hr
  by_cases hc : division_count r m = 1
  · refine ⟨r, r - r, ?_, by omega, le_refl r, rfl, by omega⟩
    simp [dividerNext, hc]
    omega
  · have hc2 : 2 ≤ division_count r m := by omega
    have hw0 : 1 ≤ r / division_count r m :=
      (Nat.one_le_div_iff (by omega)).mpr hle
    have hw0le : r / division_count r m ≤ r / 2 := Nat.div_le_div_left hc2 (by norm_num)
    have hr2 : 2 ≤ r := by omega
    by_cases hodd : r / division_count r m &&& 1 ≠ 0
    · have hmod : r / division_count r m % 2 = 1 := by
        have := Nat.and_one_is_mod (r / division_count r m)
        omega
      refine ⟨r / division_count r m + 1, r - (r / division_count r m + 1), ?_,
        by omega, by omega, rfl, fun _ => by omega⟩
      simp only [dividerNext, if_neg (by omega : ¬r = 0), if_neg hc, if_pos hodd]
    · have hmod : r / division_count r m % 2 = 0 := by
        have := Nat.and_one_is_mod (r / division_count r m)
        omega
      refine ⟨r / division_count r m, r - r / division_count r m, ?_,
        by omega, by omega, rfl, fun _ => hmod⟩
      simp only [dividerNext, if_neg (by omega : ¬r = 0), if_neg hc, if_neg hodd]

/-- A divider with no remaining length produces nothing. -/
theorem dividerList_zero (m : Nat) : ∀ f, dividerList m f 0 = [] := by
  intro f
  cases f <;> rfl

/-- Induction on fuel: with fuel at least the remaining length, the produced
widths are positive, sum exactly to the remaining length, and all widths
except possibly the last are even. -/
theorem dividerList_spec (m : Nat) (hm : 1 ≤ m) :
    ∀ fuel r, r ≤ fuel →
      (dividerList m fuel r).sum = r ∧
        (∀ x ∈ dividerList m fuel r, 0 < x) ∧
        (∀ i, i + 1 < (dividerList m fuel r).length →
          (dividerList m fuel r).getD i 0 % 2 = 0) := by
  intro fuel
  induction fuel with
  | zero =>
    intro r hr
    have : r = 0 := by omega
    subst this
    simp [dividerList]
  | succ f ih =>
    intro r hr
    rcases r with _ | r'
    · simp [dividerList]
    · obtain ⟨w, rem, hnext, hw1, hwr, hremeq, heven⟩ :=
        dividerNext_spec (r' + 1) m hm (by omega)
      have hlist : dividerList m (f + 1) (r' + 1) = w :: dividerList m f rem := by
        rw [dividerList, hnext]
        omega
      obtain ⟨ihsum, ihpos, iheven⟩ := ih rem (by omega)
      rw [hlist]
      refine ⟨?_, ?_, ?_⟩
      · rw [List.sum_cons, ihsum]
        omega
      · intro x hx
        rcases List.mem_cons.mp hx with hx | hx
        · omega
        · exact ihpos x hx
      · intro i hi
        cases i with
        | zero =>
          simp only [List.length_cons] at hi
          have htail : dividerList m f rem ≠ [] := by
            intro hnil
            rw [hnil] at hi
            simp at hi
          have hrem0 : rem ≠ 0 := by
            intro h0
            subst h0
            exact htail (dividerList_zero m f)
          simpa using heven hrem0
        | succ j =>
          simp only [List.length_cons] at hi
          have := iheven j (by omega)
          simpa using this

/-- C5: for every major length and minor length at least 1, the Divider
produces a finite width sequence whose widths are all positive, all even
except possibly the last, and sum exactly to the major length (the final
segment absorbs the remainder and the sequence stops at remaining `0`). -/
theorem C5_divider_segments (major minor : Nat) (hma : 1 ≤ major) (hmi : 1 ≤ minor) :
    (∀ x ∈ dividerSeq major minor, 0 < x) ∧
      (dividerSeq major minor).sum = major ∧
      (∀ i, i + 1 < (dividerSeq major minor).length →
        (dividerSeq major minor).getD i 0 % 2 = 0) := by
  obtain ⟨hsum, hpos, heven⟩ := dividerList_spec minor hmi major major (le_refl major)
  exact ⟨hpos, hsum, heven⟩

/-- Witness for C5 at the concrete division of a `5 × 2` rectangle. -/
theorem C5_divider_segments_witness :
    (∀ x ∈ dividerSeq 5 2, 0 < x) ∧
      (dividerSeq 5 2).sum = 5 ∧
      (∀ i, i + 1 < (dividerSeq 5 2).length → (dividerSeq 5 2).getD i 0 % 2 = 0) :=
  C5_divider_segments 5 2 (by decide) (by decide)

/-! ## The curve-type induction invariant (claim C7) -/

/-- The curve-type induction relation between level `i` and its parent, as a
decidable check: `level_states[i].curve_type ==
CURVE_INDUCTION_TABLE[level_states[i-1].curve_type][level_states[i-1].progress]`. -/
def inductionAt (ls : List LevelState) (i : Nat) : Bool :=
  (lsGet ls i).curve_type ==
    curveInduction (lsGet ls (i - 1)).curve_type (lsGet ls (i - 1)).progress

/-- The levels the claim calls valid: up to the current subdivided depth,
excluding the extra-subdivision last level (level `num_levels - 1`). -/
def claimedValidTop (s : CoreState) : Nat :=
  if s.last_level = s.num_levels - 1 then s.last_level - 1 else s.last_level

/-- The claim's invariant as a decidable state check: the induction relation
holds at every valid level `i > 0`. -/
def c7Check (s : CoreState) : Bool :=
  (List.range (claimedValidTop s)).all (fun k => inductionAt s.level_states (k + 1))

/-- C7 counterexample: immediately after construction with size `[5,4]` (zero
`next()` calls), level 1 is the current subdivided depth (no extra
subdivision), yet `level_states[1].curve_type = 0` while
`CURVE_INDUCTION_TABLE[level_states[0].curve_type][level_states[0].progress] =
CURVE_INDUCTION_TABLE[0][0] = 1`: the constructor overwrites the last level's
curve type with the parity-selected basic-pattern type, breaking the claimed
relation. -/
theorem C7_claim_counterexample :
    (with_level_state_storage (5, 4)).map c7Check = some false :=
  rfl

/-! ### Stack access lemmas -/

theorem lsSet_length (ls : List LevelState) (i : Nat) (v : LevelState) :
    (lsSet ls i v).length = ls.length :=
  List.length_set ls i v

theorem lsGet_lsSet_self {ls : List LevelState} {i : Nat} {v : LevelState}
    (h : i < ls.length) : lsGet (lsSet ls i v) i = v := by
  simp [lsGet, lsSet, List.getD, List.getElem?_set_self', List.getElem?_eq_getElem h]

theorem lsGet_lsSet_ne {ls : List LevelState} {i j : Nat} {v : LevelState}
    (h : j ≠ i) : lsGet (lsSet ls i v) j = lsGet ls j := by
  simp [lsGet, lsSet, List.getD, List.getElem?_set_ne (Ne.symm h)]

/-- A write that keeps the written slot's `curve_type` keeps every slot's
`curve_type`. -/
theorem lsGet_lsSet_keep_ct {ls : List LevelState} {i : Nat} {v : LevelState}
    (hct : v.curve_type = (lsGet ls i).curve_type) (k : Nat) :
    (lsGet (lsSet ls i v) k).curve_type = (lsGet ls k).curve_type := by
  by_cases hk : k = i
  · subst hk
    by_cases hl : k < ls.length
    · rw [lsGet_lsSet_self hl, hct]
    · rw [lsSet, List.set_eq_of_length_le (by omega)]
  · rw [lsGet_lsSet_ne hk]

/-- A write that keeps the written slot's `curve_type` and `progress` keeps
every slot's `curve_type` and `progress`. -/
theorem lsGet_lsSet_keep_ctpr {ls : List LevelState} {i : Nat} {v : LevelState}
    (hct : v.curve_type = (lsGet ls i).curve_type)
    (hpr : v.progress = (lsGet ls i).progress) (k : Nat) :
    (lsGet (lsSet ls i v) k).curve_type = (lsGet ls k).curve_type ∧
      (lsGet (lsSet ls i v) k).progress = (lsGet ls k).progress := by
  by_cases hk : k = i
  · subst hk
    by_cases hl : k < ls.length
    · rw [lsGet_lsSet_self hl, hct, hpr]
      exact ⟨rfl, rfl⟩
    · rw [lsSet, List.set_eq_of_length_le (by omega)]
      exact ⟨rfl, rfl⟩
  · rw [lsGet_lsSet_ne hk]
    exact ⟨rfl, rfl⟩

/-! ### The amended induction invariant -/

/-- The curve-type induction relation at level `i` of a stack, as a
proposition. -/
def relAt (ls : List LevelState) (i : Nat) : Prop :=
  (lsGet ls i).curve_type =
    curveInduction (lsGet ls (i - 1)).curve_type (lsGet ls (i - 1)).progress

/-- Amended invariant: the induction relation holds at every level `i` with
`0 < i < num_levels - 2`, i.e. strictly above the leaf-pattern level
(`num_levels - 2`, whose curve type the scanning-pattern selection may
reassign) and the extra-subdivision level (`num_levels - 1`). -/
def inductionInvariant (s : CoreState) : Prop :=
  ∀ i, 0 < i → i + 2 < s.num_levels → relAt s.level_states i

/-! ### The invariant holds after construction -/

theorem log2Fuel_le : ∀ f x, log2Fuel f x ≤ f := by
  intro f
  induction f with
  | zero => intro x; simp [log2Fuel]
  | succ f ih =>
    intro x
    rw [log2Fuel]
    split_ifs
    · have := ih (x / 2)
      omega
    · omega

theorem log2Fuel_pos {f x : Nat} (h : 2 ≤ x) : 1 ≤ log2Fuel (f + 1) x := by
  rw [log2Fuel, if_pos h]
  omega

/-- For a side of length at least 2, `log2_floor` is at least 1. -/
theorem log2_floor_pos {x : Nat} (h : 2 ≤ x) : 1 ≤ log2_floor x := by
  have h1 : 1 ≤ log2Fuel 32 x := log2Fuel_pos h
  have h2 : log2Fuel 32 x ≤ 32 := log2Fuel_le 32 x
  have hu : u32_leading_zeros x = 32 - (log2Fuel 32 x + 1) := by
    rw [u32_leading_zeros, if_neg (by omega)]
  have hu30 : u32_leading_zeros x ≤ 30 := by omega
  have h0 : u32_leading_zeros 0 = 32 := rfl
  rw [log2_floor, h0]
  have hw1 : wsub 32 1 = 31 := by decide
  rw [hw1, wsub_of_le (by omega) (by norm_num [M32])]
  omega

/-- A successful `num_levels_for_size` implies both sides at least 2 and a
level count of at least 2. -/
theorem num_levels_ge_two {size : V2} {nl : Nat}
    (h : num_levels_for_size size = some nl) :
    2 ≤ nl ∧ 2 ≤ size.1 ∧ 2 ≤ size.2 := by
  unfold num_levels_for_size at h
  split_ifs at h with hg
  push_neg at hg
  injection h with h'
  have hm : 2 ≤ min size.1 size.2 := le_min (by omega) (by omega)
  have := log2_floor_pos hm
  exact ⟨by omega, by omega, by omega⟩

theorem buildLevels_length (count : Nat) :
    ∀ prev i, (buildLevels prev i count).length = count := by
  induction count with
  | zero => intro prev i; rfl
  | succ c ih =>
    intro prev i
    simp [buildLevels, ih]

/-- The curve type and progress of the levels written by the constructor's
initialization loop. -/
theorem buildLevels_ct_pr (count : Nat) :
    ∀ prev i k, k < count →
      ((buildLevels prev i count).getD k default).curve_type = (i + k) % 2 ∧
        ((buildLevels prev i count).getD k default).progress = 0 := by
  induction count with
  | zero => intro prev i k h; omega
  | succ c ih =>
    intro prev i k hk
    cases k with
    | zero => simp [buildLevels]
    | succ k' =>
      rw [buildLevels]
      rw [List.getD_cons_succ]
      obtain ⟨h1, h2⟩ := ih _ (i + 1) k' (by omega)
      refine ⟨?_, h2⟩
      rw [h1]
      omega

/-- A write at a level other than `i` and `i - 1` preserves the induction
relation at level `i`. -/
theorem relAt_lsSet_ne {L : List LevelState} {j : Nat} {v : LevelState} {i : Nat}
    (hij : i ≠ j) (hij2 : i - 1 ≠ j) (h : relAt L i) : relAt (lsSet L j v) i := by
  unfold relAt
  rw [lsGet_lsSet_ne hij, lsGet_lsSet_ne hij2]
  exact h

/-- The base stack written by the constructor's loop satisfies the induction
relation at every level `1 ≤ i ≤ nl - 2` (all `progress` fields are 0 and the
curve types alternate as the induction table dictates). -/
theorem baseStack_relAt {size : V2} {nl : Nat} (h2 : 2 ≤ nl) :
    ∀ i, 0 < i → i ≤ nl - 2 →
      relAt (⟨size, 0, 0⟩ :: buildLevels ⟨size, 0, 0⟩ 1 (nl - 2) ++ [default]) i := by
  intro i h0 hle
  set l0 : LevelState := ⟨size, 0, 0⟩ with hl0
  have hnode : ∀ j, j < nl - 2 →
      lsGet (l0 :: buildLevels l0 1 (nl - 2) ++ [default]) (j + 1) =
        (buildLevels l0 1 (nl - 2)).getD j default := by
    intro j hj
    show (l0 :: (buildLevels l0 1 (nl - 2) ++ [default])).getD (j + 1) default = _
    rw [List.getD_cons_succ]
    exact List.getD_append _ _ _ _ (by rw [buildLevels_length]; omega)
  have hcur : (lsGet (l0 :: buildLevels l0 1 (nl - 2) ++ [default]) i).curve_type = i % 2 ∧
      (lsGet (l0 :: buildLevels l0 1 (nl - 2) ++ [default]) i).progress = 0 := by
    rcases i with _ | j
    · omega
    · rw [hnode j (by omega)]
      obtain ⟨hc, hp⟩ := buildLevels_ct_pr (nl - 2) l0 1 j (by omega)
      rw [hc]
      exact ⟨by omega, hp⟩
  have hprev : (lsGet (l0 :: buildLevels l0 1 (nl - 2) ++ [default]) (i - 1)).curve_type = (i - 1) % 2 ∧
      (lsGet (l0 :: buildLevels l0 1 (nl - 2) ++ [default]) (i - 1)).progress = 0 := by
    rcases hi1 : i - 1 with _ | j
    · exact ⟨rfl, rfl⟩
    · rw [hnode j (by omega)]
      obtain ⟨hc, hp⟩ := buildLevels_ct_pr (nl - 2) l0 1 j (by omega)
      rw [hc]
      exact ⟨by omega, hp⟩
  unfold relAt
  rw [hcur.1, hprev.1, hprev.2]
  rcases Nat.mod_two_eq_zero_or_one (i - 1) with hpar | hpar <;> rw [hpar]
  · have : i % 2 = 1 := by omega
    rw [this]
    rfl
  · have : i % 2 = 0 := by omega
    rw [this]
    rfl

/-- The constructed state reports `num_levels` faithfully, carries a stack of
that length, and satisfies the amended induction invariant: the constructor
only ever rewrites levels `num_levels - 2` and `num_levels - 1`. -/
theorem constructState_inv (size : V2) (nl : Nat) (h2 : 2 ≤ nl) :
    (constructState size nl).num_levels = nl ∧
      (constructState size nl).level_states.length = nl ∧
      inductionInvariant (constructState size nl) := by
  have hrel0 : ∀ i, 0 < i → i + 2 < nl →
      relAt (⟨size, 0, 0⟩ :: buildLevels ⟨size, 0, 0⟩ 1 (nl - 2) ++ [default]) i :=
    fun i h0 hi => baseStack_relAt h2 i h0 (by omega)
  unfold constructState
  dsimp only
  split_ifs
  all_goals try contradiction
  all_goals refine ⟨rfl, ?_, ?_⟩
  all_goals
    first
    | (simp only [initState, lsSet_length, List.length_cons, List.length_append,
        List.length_nil, buildLevels_length]
       omega)
    | (intro i h0 hi
       simp only [initState] at hi ⊢
       repeat apply relAt_lsSet_ne (by omega) (by omega)
       exact hrel0 i h0 (by omega))

/-! ### Ascent and descent preserve the stack shape -/

theorem ascendBump_fst (ls : List LevelState) (i : Nat) :
    (ascendBump ls i).1 =
      lsSet ls i { lsGet ls i with progress := (lsGet ls i).progress + 1 } :=
  rfl

theorem ascendBump_length (ls : List LevelState) (i : Nat) :
    (ascendBump ls i).1.length = ls.length := by
  rw [ascendBump_fst, lsSet_length]

/-- Incrementing a level's progress never changes any curve type. -/
theorem ascendBump_ct (ls : List LevelState) (i k : Nat) :
    (lsGet (ascendBump ls i).1 k).curve_type = (lsGet ls k).curve_type := by
  rw [ascendBump_fst]
  apply lsGet_lsSet_keep_ct
  rfl

theorem ascendBump_untouched (ls : List LevelState) (i k : Nat) (h : k ≠ i) :
    lsGet (ascendBump ls i).1 k = lsGet ls k := by
  rw [ascendBump_fst]
  exact lsGet_lsSet_ne h

theorem ascendBreak_fst (pa sa bc be : Nat) (bn : Bool) (pos : V2)
    (ls : List LevelState) (i : Nat) :
    (ascendBreak pa sa bc be bn pos ls i).1 = ls :=
  rfl

theorem ascendBreak_snd_level (pa sa bc be : Nat) (bn : Bool) (pos : V2)
    (ls : List LevelState) (i : Nat) {j : Nat} {pos2 : V2} {e : Nat}
    (h : (ascendBreak pa sa bc be bn pos ls i).2 = some (j, pos2, e)) : j = i := by
  simp only [ascendBreak] at h
  obtain ⟨h1, -⟩ := Prod.mk.injEq .. ▸ Option.some.inj h
  omega

/-- The ascent loop preserves the stack length and every curve type, and when
it breaks at level `j` it has touched no level below `j`. -/
theorem ascendLoop_spec (pa sa bc be : Nat) (bn : Bool) (pos : V2) :
    ∀ (i : Nat) (ls : List LevelState),
      (ascendLoop pa sa bc be bn pos ls i).1.length = ls.length ∧
        (∀ k, (lsGet (ascendLoop pa sa bc be bn pos ls i).1 k).curve_type =
          (lsGet ls k).curve_type) ∧
        (∀ j pos2 e, (ascendLoop pa sa bc be bn pos ls i).2 = some (j, pos2, e) →
          j ≤ i ∧ ∀ k, k < j →
            lsGet (ascendLoop pa sa bc be bn pos ls i).1 k = lsGet ls k) := by
  intro i
  induction i with
  | zero =>
    intro ls
    rw [ascendLoop]
    split_ifs with h4
    · exact ⟨ascendBump_length ls 0, fun k => ascendBump_ct ls 0 k, by simp⟩
    · rw [ascendBreak_fst]
      refine ⟨ascendBump_length ls 0, fun k => ascendBump_ct ls 0 k, ?_⟩
      intro j pos2 e hj
      have := ascendBreak_snd_level pa sa bc be bn pos (ascendBump ls 0).1 0 hj
      subst this
      exact ⟨le_refl 0, fun k hk => absurd hk (by omega)⟩
  | succ i ih =>
    intro ls
    rw [ascendLoop]
    split_ifs with h4
    · obtain ⟨ihlen, ihct, ihbr⟩ := ih (ascendBump ls (i + 1)).1
      refine ⟨by rw [ihlen, ascendBump_length], ?_, ?_⟩
      · intro k
        rw [ihct k, ascendBump_ct]
      · intro j pos2 e hj
        obtain ⟨hji, huntouched⟩ := ihbr j pos2 e hj
        refine ⟨by omega, ?_⟩
        intro k hk
        rw [huntouched k hk, ascendBump_untouched _ _ _ (by omega)]
    · rw [ascendBreak_fst]
      refine ⟨ascendBump_length ls (i + 1), fun k => ascendBump_ct ls (i + 1) k, ?_⟩
      intro j pos2 e hj
      have := ascendBreak_snd_level pa sa bc be bn pos (ascendBump ls (i + 1)).1 (i + 1) hj
      subst this
      exact ⟨le_refl _, fun k hk => ascendBump_untouched _ _ _ (by omega)⟩

/-- The re-descent loop ends at `i + fuel`, preserves the stack length and
the levels up to `i`, and establishes the induction relation at every level
it rebuilds. -/
theorem descendLoop_spec :
    ∀ (fuel : Nat) (ls : List LevelState) (i : Nat), i + fuel < ls.length →
      (descendLoop ls i fuel).2 = i + fuel ∧
        (descendLoop ls i fuel).1.length = ls.length ∧
        (∀ k, k ≤ i → lsGet (descendLoop ls i fuel).1 k = lsGet ls k) ∧
        (∀ k, i < k → k ≤ i + fuel → relAt (descendLoop ls i fuel).1 k) := by
  intro fuel
  induction fuel with
  | zero =>
    intro ls i hlen
    exact ⟨rfl, rfl, fun k _ => rfl, fun k hk1 hk2 => absurd hk1 (by omega)⟩
  | succ f ih =>
    intro ls i hlen
    rw [descendLoop]
    obtain ⟨ih2, ihlen, ihlow, ihrel⟩ :=
      ih (lsSet ls (i + 1)
        ⟨((if curveAddr (lsGet ls i).curve_type >>> ((lsGet ls i).progress * 2) &&& 0b10 ≠ 0 then
             (map2 division_l1 (lsGet ls i).size).1
           else (wsub (lsGet ls i).size.1 (map2 division_l1 (lsGet ls i).size).1)),
          (if curveAddr (lsGet ls i).curve_type >>> ((lsGet ls i).progress * 2) &&& 0b01 ≠ 0 then
             (map2 division_l1 (lsGet ls i).size).2
           else (wsub (lsGet ls i).size.2 (map2 division_l1 (lsGet ls i).size).2))),
          curveInduction (lsGet ls i).curve_type (lsGet ls i).progress, 0⟩)
        (i + 1) (by rw [lsSet_length]; omega)
    refine ⟨by rw [ih2]; omega, by rw [ihlen, lsSet_length], ?_, ?_⟩
    · intro k hk
      rw [ihlow k (by omega), lsGet_lsSet_ne (by omega)]
    · intro k hk1 hk2
      rcases Nat.lt_or_ge (i + 1) k with hgt | hle
      · exact ihrel k hgt (by omega)
      · have hk : k = i + 1 := by omega
        subst hk
        unfold relAt
        simp only [Nat.add_sub_cancel]
        have e1 := ihlow (i + 1) (le_refl _)
        have e0 := ihlow i (by omega)
        rw [e1, e0, lsGet_lsSet_self (by omega), lsGet_lsSet_ne (by omega)]

/-! ### The invariant is preserved by every `next` call -/

/-- A state whose stack length matches `num_levels` and which, while not
exhausted, satisfies the amended induction invariant. -/
def GoodState (s : CoreState) : Prop :=
  s.level_states.length = s.num_levels ∧ (s.done = false → inductionInvariant s)

/-- A write preserving the written slot's `curve_type` and `progress`
preserves the induction relation everywhere. -/
theorem relAt_lsSet_keep {L : List LevelState} {j : Nat} {v : LevelState}
    (hct : v.curve_type = (lsGet L j).curve_type)
    (hpr : v.progress = (lsGet L j).progress) {i : Nat} (h : relAt L i) :
    relAt (lsSet L j v) i := by
  unfold relAt
  obtain ⟨c1, _⟩ := lsGet_lsSet_keep_ctpr hct hpr i
  obtain ⟨c0, p0⟩ := lsGet_lsSet_keep_ctpr hct hpr (i - 1)
  rw [c1, c0, p0]
  exact h

/-- `sameBlock` only rewrites a level's `size`, so it preserves the
invariant. -/
theorem sameBlock_good {s : CoreState} {i : Nat}
    (hlen : s.level_states.length = s.num_levels)
    (hinv : inductionInvariant s) (hdone : s.done = false) :
    GoodState (sameBlock s i) := by
  refine ⟨?_, fun _ => ?_⟩
  · simp only [sameBlock, setBasicBlock, lsSet_length]
    exact hlen
  · intro k h0 hk
    simp only [sameBlock, setBasicBlock] at hk ⊢
    apply relAt_lsSet_keep
    · rfl
    · rfl
    · exact hinv k h0 hk

/-- `newBlock` re-descends (rebuilding the induction relation at every level
it crosses) and then rewrites only levels at or above `num_levels - 2`. -/
theorem newBlock_good {s : CoreState} {j e : Nat}
    (hlen : s.level_states.length = s.num_levels)
    (hrellow : ∀ i, 0 < i → i + 2 < s.num_levels → i ≤ j → relAt s.level_states i)
    (hdone : s.done = false) :
    GoodState (newBlock s j e) := by
  unfold newBlock
  dsimp only
  set D := descendLoop s.level_states j (s.num_levels - 2 - j) with hD
  have hfacts : D.1.length = s.level_states.length ∧ s.num_levels - 2 ≤ D.2 ∧
      ∀ k, 0 < k → k + 2 < s.num_levels → relAt D.1 k := by
    rcases Nat.lt_or_ge j (s.num_levels - 2) with hj | hj
    · obtain ⟨d2, dlen, dlow, drel⟩ :=
        descendLoop_spec (s.num_levels - 2 - j) s.level_states j (by omega)
      rw [← hD] at d2 dlen dlow drel
      refine ⟨dlen, by omega, ?_⟩
      intro k h0 hk
      rcases le_or_lt k j with hkj | hkj
      · unfold relAt
        rw [dlow k hkj, dlow (k - 1) (by omega)]
        exact hrellow k h0 hk hkj
      · exact drel k hkj (by omega)
    · have hfuel : s.num_levels - 2 - j = 0 := by omega
      have hDval : D = (s.level_states, j) := by
        rw [hD, hfuel]
        rfl
      rw [hDval]
      exact ⟨rfl, by omega, fun k h0 hk => hrellow k h0 hk (by omega)⟩
  obtain ⟨hlenD, hD2ge, hrelD⟩ := hfacts
  have hlen2 : D.1.length = s.num_levels := by rw [hlenD, hlen]
  split_ifs
  all_goals refine ⟨?_, fun _ => ?_⟩
  all_goals simp only [setBasicBlock, lsSet_length]
  all_goals
    first
      | exact hlen2
      | (intro k h0 hk
         have hk2 : k + 2 < s.num_levels := hk
         first
           | exact hrelD k h0 hk2
           | exact relAt_lsSet_ne (by omega) (by omega)
               (relAt_lsSet_ne (by omega) (by omega) (hrelD k h0 hk2)))

/-- The ascent tail preserves the invariant: the loop only bumps `progress`
at the levels it crosses, and the subsequent same-block or new-block code
restores the relation wherever it may have been disturbed. -/
theorem stepAscend_good {s : CoreState} {pa sa : Nat}
    (hlen : s.level_states.length = s.num_levels)
    (hinv : inductionInvariant s) (hdone : s.done = false) :
    GoodState (stepAscend s pa sa) := by
  unfold stepAscend
  rcases hA : ascendLoop pa sa s.bb_curve_type s.bb_end s.bb_secondary_neg
    s.position s.level_states (s.last_level - 1) with ⟨ls2, r⟩
  obtain ⟨alen, act, abr⟩ :=
    ascendLoop_spec pa sa s.bb_curve_type s.bb_end s.bb_secondary_neg
      s.position (s.last_level - 1) s.level_states
  rw [hA] at alen act abr
  cases r with
  | none =>
    dsimp only
    exact ⟨by rw [alen, hlen], fun hd => absurd hd (by simp)⟩
  | some trip =>
    rcases trip with ⟨j, pos2, e⟩
    dsimp only
    obtain ⟨hji, huntouched⟩ := abr j pos2 e rfl
    have hrellow2 : ∀ i, 0 < i → i + 2 < s.num_levels → i ≤ j → relAt ls2 i := by
      intro i h0 hi hij
      unfold relAt
      rw [act i, huntouched (i - 1) (by omega)]
      exact hinv i h0 hi
    have hl2 : ls2.length = s.num_levels := by rw [alen]; exact hlen
    split_ifs with hsame
    · have hsame2 : j = s.num_levels - 2 := hsame
      refine sameBlock_good hl2 ?_ hdone
      intro i h0 hi
      have hi2 : i + 2 < s.num_levels := hi
      exact hrellow2 i h0 hi2 (by omega)
    · refine newBlock_good hl2 ?_ hdone
      intro i h0 hi hij
      have hi2 : i + 2 < s.num_levels := hi
      exact hrellow2 i h0 hi2 hij

/-- The block-complete tail preserves the invariant. -/
theorem stepBlockEnd_good {s : CoreState} {pa sa : Nat}
    (hlen : s.level_states.length = s.num_levels)
    (hinv : inductionInvariant s) (hdone : s.done = false) :
    GoodState (stepBlockEnd s pa sa) := by
  unfold stepBlockEnd
  split_ifs with h1 h2
  · exact ⟨hlen, fun _ => hinv⟩
  · exact ⟨hlen, fun hd => absurd hd (by simp)⟩
  · exact stepAscend_good hlen hinv hdone

/-- One `step` preserves the invariant. -/
theorem step_good {s : CoreState}
    (hlen : s.level_states.length = s.num_levels)
    (hinv : inductionInvariant s) (hdone : s.done = false) :
    GoodState (step s) := by
  unfold step
  dsimp only
  split_ifs with h1 h2
  · exact ⟨hlen, fun _ => hinv⟩
  · exact ⟨hlen, fun _ => hinv⟩
  · exact stepBlockEnd_good hlen hinv hdone

set_option maxRecDepth 2048 in
/-- One `next` call preserves the invariant. -/
theorem next_good {s : CoreState} (h : GoodState s) : GoodState (next s).2 := by
  by_cases hd : s.done
  · rw [next_of_done hd]
    exact h
  · have hdf : s.done = false := by simpa using hd
    have hn : (next s).2 = step s := by
      simp [next, hdf]
    rw [hn]
    exact step_good h.1 (h.2 hdf) hdf

/-- Iterate `next`, keeping the state returned on exhaustion. -/
def iterNext : Nat → CoreState → CoreState
  | 0, s => s
  | n + 1, s => iterNext n (next s).2

theorem iterNext_good : ∀ (n : Nat) (s : CoreState), GoodState s →
    GoodState (iterNext n s) := by
  intro n
  induction n with
  | zero => intro s h; exact h
  | succ n ih => intro s h; exact ih (next s).2 (next_good h)

/-- C7 (amended): in every reachable, not-yet-exhausted `HilbertScanCore`
state — after construction and any number of `next()` calls — every level `i`
with `0 < i < num_levels - 2` satisfies `level_states[i].curve_type =
CURVE_INDUCTION_TABLE[level_states[i-1].curve_type][level_states[i-1].progress]`.
(The two deepest levels are excluded: the leaf-pattern level `num_levels - 2`
has its curve type reassigned by the scanning-pattern selection, and the
extra-subdivision level `num_levels - 1` holds no valid curve type; an
exhausted state is excluded because the final ascent leaves `progress = 4` at
every level.) -/
theorem C7_induction_invariant_amended (size : V2) (s0 : CoreState) (n : Nat)
    (h0 : with_level_state_storage size = some s0)
    (hrun : (iterNext n s0).done = false) :
    ∀ i, 0 < i → i + 2 < (iterNext n s0).num_levels →
      (lsGet (iterNext n s0).level_states i).curve_type =
        curveInduction (lsGet (iterNext n s0).level_states (i - 1)).curve_type
          (lsGet (iterNext n s0).level_states (i - 1)).progress := by
  have hgood0 : GoodState s0 := by
    rcases hnl : num_levels_for_size size with _ | nl
    · rw [with_level_state_storage, hnl] at h0
      exact absurd h0 (by simp)
    · rw [with_level_state_storage, hnl] at h0
      injection h0 with h0'
      subst h0'
      obtain ⟨hnum, hlen, hinv⟩ :=
        constructState_inv size nl (num_levels_ge_two hnl).1
      exact ⟨by rw [hlen, hnum], fun _ => hinv⟩
  exact (iterNext_good n s0 hgood0).2 hrun

/-- Witness for the amended C7 at the concrete size `[8,8]` (4 subdivision
levels) right after construction. -/
theorem C7_induction_invariant_amended_witness :
    (lsGet (iterNext 0 ((with_level_state_storage (8, 8)).getD default)).level_states 1).curve_type =
      curveInduction
        (lsGet (iterNext 0 ((with_level_state_storage (8, 8)).getD default)).level_states 0).curve_type
        (lsGet (iterNext 0 ((with_level_state_storage (8, 8)).getD default)).level_states 0).progress := by
  have h := C7_induction_invariant_amended (8, 8)
    ((with_level_state_storage (8, 8)).getD default) 0 rfl rfl 1 (by decide) (by decide)
  simpa using h

end ZhangHilbert
